import Mathlib

/-!
Shallow embedding of the Earth Engine time-series export script
(`time_series_extract.js` and the ERA5 chunked-export variant).

The script builds a declarative query over the hosted platform's API:
it filters an image collection by date, scales the selected band,
samples it at point features (`reduceRegions`), tags each sample with
the image id, pivots the resulting long-format triplet table into a
wide per-point table (`formatTable`), and exports it.  A second file
adds a chunking driver (`getSubset` / `divideAndExportTimeSeries`).

Feature properties are dynamically typed values (string, number, or
null); we embed platform numbers as rationals.  Platform collection
primitives (`distinct`, `Join.saveAll`, `map`, `filter`, `toList`) are
given their documented list semantics.  A mapped computation that would
raise a server-side error (for example formatting a non-numeric value)
is embedded in the `Option` monad.
-/

namespace GEE

/-- Dynamically typed Earth Engine property values: null, numbers
(embedded as rationals), and strings. -/
inductive EEVal where
  | null : EEVal
  | num : ℚ → EEVal
  | str : String → EEVal
deriving DecidableEq

/-- A feature: a property map, embedded as an association list from
property names to values. -/
structure Feature where
  props : List (String × EEVal)
deriving DecidableEq

/-- Association-list lookup; an absent property reads as null, as
`ee.Feature.get` does. -/
def getVal : List (String × EEVal) → String → EEVal
  | [], _ => .null
  | (k1, v) :: rest, k => if k1 = k then v else getVal rest k

/-- Association-list update: overwrite the property if present,
append it otherwise, as `ee.Feature.set` does. -/
def setVal : List (String × EEVal) → String → EEVal → List (String × EEVal)
  | [], k, v => [(k, v)]
  | (k1, v1) :: rest, k, v =>
    if k1 = k then (k, v) :: rest else (k1, v1) :: setVal rest k v

/-- Property lookup on a feature. -/
def Feature.get (f : Feature) (k : String) : EEVal := getVal f.props k

/-- Property update on a feature. -/
def Feature.set (f : Feature) (k : String) (v : EEVal) : Feature :=
  ⟨setVal f.props k v⟩

/-- Keep only the properties named in `ks`, as `ee.Feature.select`. -/
def Feature.select (f : Feature) (ks : List String) : Feature :=
  ⟨f.props.filter (fun p => p.1 ∈ ks)⟩

/-- The property names a feature carries. -/
def Feature.keys (f : Feature) : List String := f.props.map Prod.fst

/-- Fuelled recursion for `distinctBy`: the list shrinks by at least one
element per step, so fuel equal to the length suffices.  Structural recursion
on the fuel keeps the definition kernel-computable. -/
def distinctByFuel (key : Feature → EEVal) : ℕ → List Feature → List Feature
  | _, [] => []
  | 0, _ :: _ => []
  | n + 1, f :: rest =>
    f :: distinctByFuel key n (rest.filter (fun g => key g ≠ key f))

/-- Platform primitive `ee.FeatureCollection.distinct(property)`: keep, in
collection order, the first feature for each distinct value of the keyed
property. -/
def distinctBy (key : Feature → EEVal) (l : List Feature) : List Feature :=
  distinctByFuel key l.length l

/-- Mapping a fallible (server-side erroring) computation over a collection:
the whole query fails if any element does. -/
def optMap (f : α → Option β) : List α → Option (List β)
  | [] => some []
  | a :: as =>
    match f a, optMap f as with
    | some b, some bs => some (b :: bs)
    | _, _ => none

/-- Render a natural number below 100 with two digits, as the last two
characters of a fixed two-decimal rendering. -/
def pad2 (m : ℕ) : String := if m < 10 then "0" ++ Nat.repr m else Nat.repr m

/-- Round `q * 100` to the nearest integer, computed on the integer
numerator and denominator so that the kernel can evaluate it; see
`fmt2Round_eq_round`. -/
def fmt2Round (q : ℚ) : ℤ :=
  Int.fdiv (200 * q.num + (q.den : ℤ)) (2 * (q.den : ℤ))

/-- Platform primitive `ee.Number.format('%.2f')`: fixed-precision decimal
rendering with two digits after the decimal point.  Server-side numbers are
embedded as rationals; we scale by 100 and round to the nearest integer
(the exact tie-breaking rule of the server's formatter is immaterial to the
claims, which only constrain the shape of the output). -/
def fmt2 (q : ℚ) : String :=
  let n : ℤ := fmt2Round q
  (if n < 0 then "-" else "") ++ Nat.repr (n.natAbs / 100) ++ "." ++ pad2 (n.natAbs % 100)

/-- The `firstNonNull` reduction of the script:
`ee.List([value, -9999]).reduce(ee.Reducer.firstNonNull())`. -/
def firstNonNull (v d : EEVal) : EEVal :=
  match v with
  | .null => d
  | x => x

/-- The cell a match feature contributes in `formatTable`: the band-alias
value, with `-9999` substituted for null, rendered with two decimals.
Formatting a string value is a server-side type error, hence `none`. -/
def cellOf (bandAlias : String) (f : Feature) : Option String :=
  match firstNonNull (f.get bandAlias) (.num (-9999)) with
  | .num q => some (fmt2 q)
  | _ => none

/-- The column key a match feature contributes: its `colId` property, which
must be a string to serve as a dictionary key. -/
def keyOf (colId : String) (f : Feature) : Option String :=
  match f.get colId with
  | .str s => some s
  | _ => none

/-- The `[feature.get(colId), formatted value]` pair built inside
`formatTable` for one match feature. -/
def rowEntry (colId bandAlias : String) (f : Feature) : Option (String × String) :=
  match keyOf colId f, cellOf bandAlias f with
  | some k, some c => some (k, c)
  | _, _ => none

/-- Apply `row.set(ee.Dictionary(...))`: set every key/value pair of the
dictionary (built from the flattened entry list) on the feature. -/
def setAll (f : Feature) : List (String × String) → Feature
  | [] => f
  | (k, c) :: rest => setAll (f.set k (.str c)) rest

/-- The saveAll-join match list of a primary row: all table features whose
`rowId` property equals the row's (`ee.Join.saveAll('matches')` with an
equality condition on `rowId`). -/
def matchesOf (table : List Feature) (rowId : String) (r : Feature) : List Feature :=
  table.filter (fun f => f.get rowId = r.get rowId)

/-- Build one wide row from a primary row: map each match to its
`[colId value, formatted cell]` pair, then `row.select([rowId])` and set the
dictionary of pairs. -/
def formatRow (table : List Feature) (rowId colId bandAlias : String)
    (r : Feature) : Option Feature :=
  match optMap (rowEntry colId bandAlias) (matchesOf table rowId r) with
  | some values => some (setAll (r.select [rowId]) values)
  | none => none

/-- The `formatTable` function of the script: one row per distinct `rowId`
value, saveAll-joined back to the table (primaries without matches are
dropped by the join), each row pivoted into wide format. -/
def formatTable (table : List Feature) (rowId colId bandAlias : String) :
    Option (List Feature) :=
  let rows := distinctBy (fun f => f.get rowId) table
  let joined := rows.filter (fun r => ¬ (matchesOf table rowId r).isEmpty)
  optMap (formatRow table rowId colId bandAlias) joined

/-- A string renders with exactly two digits after the decimal point. -/
def hasTwoDecimals (s : String) : Prop :=
  ∃ pre post, s = pre ++ "." ++ post ∧ post.length = 2
    ∧ post.toList.all Char.isDigit = true

/-- A concrete two-point, two-image long table used by witnesses: each point
was measured in exactly one image. -/
def sampleTable : List Feature :=
  [⟨[("id", .num 1), ("imageId", .str "c1"), ("v", .num 5)]⟩,
   ⟨[("id", .num 2), ("imageId", .str "c2"), ("v", .num 3)]⟩]

/-- The wide table produced from `sampleTable`. -/
def sampleWide : List Feature :=
  (formatTable sampleTable "id" "imageId" "v").getD []

/-- A concrete one-point table whose single sample is null. -/
def nullTable : List Feature :=
  [⟨[("id", .num 1), ("imageId", .str "c1"), ("v", .null)]⟩]

/-- The wide table produced from `nullTable`. -/
def nullWide : List Feature :=
  (formatTable nullTable "id" "imageId" "v").getD []

/-- An Earth Engine image: an id (`system:index`, exposed by `image.id()`),
metadata properties, and per-band pixel values on an integer grid (`none`
models a masked pixel). -/
structure EEImage where
  id : String
  props : List (String × EEVal)
  pix : String → ℤ × ℤ → Option ℚ

/-- Metadata property lookup on an image. -/
def EEImage.getProp (img : EEImage) (k : String) : EEVal := getVal img.props k

/-- Metadata property update on an image. -/
def EEImage.setProp (img : EEImage) (k : String) (v : EEVal) : EEImage :=
  ⟨img.id, setVal img.props k v, img.pix⟩

/-- Platform primitive `ee.Image.select(band)`: keep only the named band. -/
def EEImage.selectBand (img : EEImage) (band : String) : EEImage :=
  ⟨img.id, img.props, fun b p => if b = band then img.pix b p else none⟩

/-- Platform primitive `ee.Image.multiply(constant)`: pixelwise product on
every band; the result of image arithmetic carries no metadata properties
(which is why the script calls `copyProperties`), while the collection-map
framework preserves the image id. -/
def EEImage.multiplyConst (img : EEImage) (m : ℚ) : EEImage :=
  ⟨img.id, [], fun b p => (img.pix b p).map (fun v => v * m)⟩

/-- Platform primitive `copyProperties(source, properties)`: copy the listed
metadata properties from `src` onto `dst`. -/
def copyProps (dst src : EEImage) (ks : List String) : EEImage :=
  ks.foldl (fun d k => d.setProp k (src.getProp k)) dst

/-- The per-image scaling step of `exportTimeSeries`:
`image.multiply(multiplier).copyProperties(image,
['system:time_start', 'system:time_end'])`. -/
def scaleImage (m : ℚ) (img : EEImage) : EEImage :=
  copyProps (img.multiplyConst m) img ["system:time_start", "system:time_end"]

/-- Platform primitive `filterDate(start, end)`: keep images whose
`system:time_start` lies in the half-open interval. Timestamps are embedded
as rational epoch values. -/
def filterDate (ic : List EEImage) (s e : ℚ) : List EEImage :=
  ic.filter (fun img =>
    match img.getProp "system:time_start" with
    | .num t => decide (s ≤ t ∧ t < e)
    | _ => false)

/-- `imageCollection.filterDate(startDate, endDate).select(band)` of
`exportTimeSeries`. -/
def filteredCollection (ic : List EEImage) (s e : ℚ) (band : String) :
    List EEImage :=
  (filterDate ic s e).map (fun img => img.selectBand band)

/-- The scaled collection of `exportTimeSeries`. -/
def scaledBand (ic : List EEImage) (s e : ℚ) (band : String) (m : ℚ) :
    List EEImage :=
  (filteredCollection ic s e band).map (scaleImage m)

/-- Platform primitive `image.reduceRegions(collection, mean reducer, scale)`
with outputs renamed to `bandAlias`: one output feature per input feature,
carrying the input's properties plus the regional mean of the image under the
feature's geometry.  The geometry and raster reduction live server-side, so
the mean is abstracted as a sampling function `sample`; it returns the
reduced value (a number, or null where the image is unmasked nowhere on the
feature). -/
def reduceRegions (img : EEImage) (fc : List Feature) (bandAlias : String)
    (sample : EEImage → Feature → EEVal) : List Feature :=
  fc.map (fun f => f.set bandAlias (sample img f))

/-- One image's contribution to the long table: reduce over all point
features and tag each result with the image id
(`...reduceRegions(...).map(function(feature) (feature.set('imageId',
image.id())))`). -/
def tripletBlock (img : EEImage) (fc : List Feature) (bandAlias : String)
    (sample : EEImage → Feature → EEVal) : List Feature :=
  (reduceRegions img fc bandAlias sample).map
    (fun f => f.set "imageId" (.str img.id))

/-- The long-format triplet table of `exportTimeSeries`: the per-image
blocks over the (scaled) collection, flattened. -/
def tripletsOf (images : List EEImage) (fc : List Feature) (bandAlias : String)
    (sample : EEImage → Feature → EEVal) : List Feature :=
  (images.map (fun img => tripletBlock img fc bandAlias sample)).flatten

/-- The `getSubset` helper:
`ee.FeatureCollection(collection.toList(endIndex, startIndex))`.  The
platform primitive `toList(count, offset)` returns up to `count` elements
after skipping `offset`; the helper passes `endIndex` as the count argument
and `startIndex` as the offset. -/
def getSubset (collection : List Feature) (startIndex endIndex : ℕ) :
    List Feature :=
  (collection.drop startIndex).take endIndex

/-- `collection.size().divide(numChunks).ceil()` of the chunk driver: the
ceiling of the real quotient of the collection size by the chunk count. -/
def chunkSize (total numChunks : ℕ) : ℕ :=
  (⌈(total : ℚ) / (numChunks : ℚ)⌉).toNat

/-- One export request issued by the chunk loop: the file name prefix handed
to `exportTimeSeries` and the point subset it is asked to export.  The
remaining arguments (collection ids, dates, band, scale, multiplier, output
folder) are passed through unchanged, so they are not recorded. -/
structure ExportCall where
  fileName : String
  subset : List Feature
deriving DecidableEq

/-- The loop of `divideAndExportTimeSeries`: for `i = 0 .. numChunks - 1` it
computes `startIndex = i * chunkSize` and `endIndex = startIndex + chunkSize`,
takes `getSubset collection startIndex endIndex`, and calls
`exportTimeSeries` with the file name `'chunk' + (i + 1) + '_' + bandAlias`. -/
def divideAndExportTimeSeries (collection : List Feature) (numChunks : ℕ)
    (bandAlias : String) : List ExportCall :=
  (List.range numChunks).map (fun i =>
    let c := chunkSize collection.length numChunks
    ⟨"chunk" ++ Nat.repr (i + 1) ++ "_" ++ bandAlias,
      getSubset collection (i * c) (i * c + c)⟩)

/-- Ten point features with ids "0" .. "9". -/
def pts10 : List Feature :=
  (List.range 10).map (fun n => ⟨[("id", .str (Nat.repr n))]⟩)

/-- The digit string of a natural number, most significant digit first:
the reference recursion that `Nat.toDigitsCore` implements with fuel. -/
def natDigits (n : ℕ) : List Char :=
  if h : n < 10 then [Nat.digitChar n]
  else natDigits (n / 10) ++ [Nat.digitChar (n % 10)]
termination_by n
decreasing_by exact Nat.div_lt_self (by omega) (by norm_num)

/-- Decode a most-significant-first digit string back to the number. -/
def decodeDigits (cs : List Char) : ℕ :=
  cs.foldl (fun acc c => 10 * acc + (c.toNat - 48)) 0

theorem getVal_setVal_self (ps : List (String × EEVal)) (k : String) (v : EEVal) :
    getVal (setVal ps k v) k = v := by
  induction ps with
  | nil => simp [setVal, getVal]
  | cons p rest ih =>
    obtain ⟨k1, v1⟩ := p
    by_cases h : k1 = k
    · simp [setVal, h, getVal]
    · simp [setVal, h, getVal, ih]

theorem getVal_setVal_ne (ps : List (String × EEVal)) (k k1 : String) (v : EEVal)
    (h : k1 ≠ k) : getVal (setVal ps k1 v) k = getVal ps k := by
  induction ps with
  | nil => simp [setVal, getVal, h]
  | cons p rest ih =>
    obtain ⟨k2, v2⟩ := p
    by_cases h2 : k2 = k1
    · subst h2
      simp [setVal, getVal, h]
    · simp only [setVal, if_neg h2, getVal, ih]

theorem Feature.get_set_self (f : Feature) (k : String) (v : EEVal) :
    (f.set k v).get k = v := getVal_setVal_self f.props k v

theorem Feature.get_set_ne (f : Feature) (k k1 : String) (v : EEVal) (h : k1 ≠ k) :
    (f.set k1 v).get k = f.get k := getVal_setVal_ne f.props k k1 v h

theorem mem_setVal (ps : List (String × EEVal)) (k k1 : String) (v v1 : EEVal)
    (h : (k, v) ∈ setVal ps k1 v1) : (k = k1 ∧ v = v1) ∨ (k, v) ∈ ps := by
  induction ps with
  | nil =>
    refine Or.inl ?_
    have h2 : (k, v) = (k1, v1) := by simpa [setVal] using h
    exact ⟨congrArg Prod.fst h2, congrArg Prod.snd h2⟩
  | cons p rest ih =>
    obtain ⟨k2, v2⟩ := p
    by_cases h2 : k2 = k1
    · rw [show setVal ((k2, v2) :: rest) k1 v1 = (k1, v1) :: rest from by
        simp [setVal, h2], List.mem_cons] at h
      rcases h with h | h
      · exact Or.inl ⟨congrArg Prod.fst h, congrArg Prod.snd h⟩
      · exact Or.inr (List.mem_cons_of_mem _ h)
    · rw [show setVal ((k2, v2) :: rest) k1 v1 = (k2, v2) :: setVal rest k1 v1 from by
        simp [setVal, h2], List.mem_cons] at h
      rcases h with h | h
      · exact Or.inr (List.mem_cons.mpr (Or.inl h))
      · rcases ih h with h3 | h3
        · exact Or.inl h3
        · exact Or.inr (List.mem_cons_of_mem _ h3)

theorem keys_set (f : Feature) (k k1 : String) (v : EEVal)
    (h : k ∈ (f.set k1 v).keys) : k = k1 ∨ k ∈ f.keys := by
  simp only [Feature.keys, Feature.set, List.mem_map] at h ⊢
  obtain ⟨⟨k2, v2⟩, hmem, hk⟩ := h
  rcases mem_setVal f.props k2 k1 v2 v hmem with h2 | h2
  · exact Or.inl (hk ▸ h2.1)
  · exact Or.inr ⟨(k2, v2), h2, hk⟩

theorem get_select_mem (f : Feature) (ks : List String) (k : String) (h : k ∈ ks) :
    (f.select ks).get k = f.get k := by
  show getVal (f.props.filter (fun p => p.1 ∈ ks)) k = getVal f.props k
  induction f.props with
  | nil => simp [getVal]
  | cons p rest ih =>
    obtain ⟨k1, v1⟩ := p
    by_cases h1 : k1 = k
    · subst h1
      simp [List.filter_cons, h, getVal]
    · by_cases h2 : k1 ∈ ks
      · simp [List.filter_cons, h2, getVal, h1, ih]
      · simp [List.filter_cons, h2, getVal, h1, ih]

theorem keys_select (f : Feature) (ks : List String) (k : String)
    (h : k ∈ (f.select ks).keys) : k ∈ ks := by
  simp only [Feature.keys, Feature.select, List.mem_map] at h
  obtain ⟨p, hmem, hk⟩ := h
  have := List.of_mem_filter hmem
  simpa [hk] using this

theorem mem_select (f : Feature) (ks : List String) (p : String × EEVal)
    (h : p ∈ (f.select ks).props) : p ∈ f.props := by
  exact List.mem_of_mem_filter h

theorem getVal_eq_null_of_forall_ne (ps : List (String × EEVal)) (k : String)
    (h : ∀ p ∈ ps, p.1 ≠ k) : getVal ps k = .null := by
  induction ps with
  | nil => rfl
  | cons p rest ih =>
    obtain ⟨k1, v1⟩ := p
    have hk1 : k1 ≠ k := h (k1, v1) (List.mem_cons_self _ _)
    simp only [getVal, if_neg hk1]
    exact ih (fun q hq => h q (List.mem_cons_of_mem _ hq))

theorem get_eq_null_of_not_mem_keys (f : Feature) (k : String)
    (h : k ∉ f.keys) : f.get k = .null := by
  refine getVal_eq_null_of_forall_ne f.props k ?_
  intro p hp hk
  exact h (List.mem_map.mpr ⟨p, hp, hk⟩)

theorem distinctByFuel_congr (key : Feature → EEVal) :
    ∀ n m l, l.length ≤ n → l.length ≤ m →
      distinctByFuel key n l = distinctByFuel key m l := by
  intro n
  induction n with
  | zero =>
    intro m l hn _
    rw [List.length_eq_zero.mp (Nat.le_zero.mp hn)]
    cases m <;> simp [distinctByFuel]
  | succ n ih =>
    intro m l hn hm
    match l with
    | [] => cases m <;> simp [distinctByFuel]
    | f :: rest =>
      match m with
      | 0 => simp at hm
      | m + 1 =>
        simp only [distinctByFuel]
        congr 1
        apply ih
        · exact le_trans (List.length_filter_le _ _) (Nat.le_of_succ_le_succ hn)
        · exact le_trans (List.length_filter_le _ _) (Nat.le_of_succ_le_succ hm)

theorem distinctBy_nil (key : Feature → EEVal) : distinctBy key [] = [] := rfl

theorem distinctBy_cons (key : Feature → EEVal) (f : Feature) (rest : List Feature) :
    distinctBy key (f :: rest)
      = f :: distinctBy key (rest.filter (fun g => key g ≠ key f)) := by
  show distinctByFuel key (f :: rest).length (f :: rest) = _
  simp only [List.length_cons, distinctByFuel]
  congr 1
  exact distinctByFuel_congr key rest.length _ _
    (List.length_filter_le _ _) (Nat.le_refl _)

theorem distinctBy_sublist_fuel (key : Feature → EEVal) (n : ℕ) :
    ∀ l : List Feature, l.length ≤ n → List.Sublist (distinctBy key l) l := by
  induction n with
  | zero =>
    intro l hl
    rw [List.length_eq_zero.mp (Nat.le_zero.mp hl), distinctBy_nil]
  | succ n ih =>
    intro l hl
    match l with
    | [] => rw [distinctBy_nil]
    | f :: rest =>
      rw [distinctBy_cons]
      refine List.Sublist.cons₂ f ?_
      refine List.Sublist.trans (ih _ ?_) (List.filter_sublist rest)
      calc (rest.filter (fun g => key g ≠ key f)).length
          ≤ rest.length := List.length_filter_le _ _
        _ ≤ n := Nat.le_of_succ_le_succ hl

theorem distinctBy_sublist (key : Feature → EEVal) (l : List Feature) :
    List.Sublist (distinctBy key l) l :=
  distinctBy_sublist_fuel key l.length l (Nat.le_refl _)

theorem distinctBy_subset (key : Feature → EEVal) (l : List Feature) (r : Feature)
    (h : r ∈ distinctBy key l) : r ∈ l :=
  (distinctBy_sublist key l).subset h

theorem distinctBy_covers_fuel (key : Feature → EEVal) (n : ℕ) :
    ∀ l : List Feature, l.length ≤ n → ∀ g ∈ l,
      ∃ r ∈ distinctBy key l, key r = key g := by
  induction n with
  | zero =>
    intro l hl g hg
    rw [List.length_eq_zero.mp (Nat.le_zero.mp hl)] at hg
    simp at hg
  | succ n ih =>
    intro l hl g hg
    match l with
    | [] => simp at hg
    | f :: rest =>
      rw [distinctBy_cons]
      rcases List.mem_cons.mp hg with hg | hg
      · exact ⟨f, List.mem_cons_self _ _, by rw [hg]⟩
      · by_cases hkey : key g = key f
        · exact ⟨f, List.mem_cons_self _ _, hkey.symm⟩
        · have hgf : g ∈ rest.filter (fun g => key g ≠ key f) :=
            List.mem_filter.mpr ⟨hg, by simpa using hkey⟩
          obtain ⟨r, hr, hrkey⟩ := ih _ (by
            calc (rest.filter (fun g => key g ≠ key f)).length
                ≤ rest.length := List.length_filter_le _ _
              _ ≤ n := Nat.le_of_succ_le_succ hl) g hgf
          exact ⟨r, List.mem_cons_of_mem _ hr, hrkey⟩

theorem distinctBy_covers (key : Feature → EEVal) (l : List Feature) (g : Feature)
    (hg : g ∈ l) : ∃ r ∈ distinctBy key l, key r = key g :=
  distinctBy_covers_fuel key l.length l (Nat.le_refl _) g hg

theorem distinctBy_keys_nodup_fuel (key : Feature → EEVal) (n : ℕ) :
    ∀ l : List Feature, l.length ≤ n → ((distinctBy key l).map key).Nodup := by
  induction n with
  | zero =>
    intro l hl
    rw [List.length_eq_zero.mp (Nat.le_zero.mp hl), distinctBy_nil]
    simp
  | succ n ih =>
    intro l hl
    match l with
    | [] => simp [distinctBy_nil]
    | f :: rest =>
      rw [distinctBy_cons, List.map_cons, List.nodup_cons]
      constructor
      · intro hmem
        obtain ⟨r, hr, hrkey⟩ := List.mem_map.mp hmem
        have hrfil := distinctBy_subset _ _ _ hr
        have := List.of_mem_filter hrfil
        simp only [decide_eq_true_eq] at this
        exact this hrkey
      · refine ih _ ?_
        calc (rest.filter (fun g => key g ≠ key f)).length
            ≤ rest.length := List.length_filter_le _ _
          _ ≤ n := Nat.le_of_succ_le_succ hl

theorem distinctBy_keys_nodup (key : Feature → EEVal) (l : List Feature) :
    ((distinctBy key l).map key).Nodup :=
  distinctBy_keys_nodup_fuel key l.length l (Nat.le_refl _)

theorem distinctBy_keys_toFinset (key : Feature → EEVal) (l : List Feature) :
    ((distinctBy key l).map key).toFinset = (l.map key).toFinset := by
  apply Finset.ext
  intro v
  simp only [List.mem_toFinset, List.mem_map]
  constructor
  · rintro ⟨r, hr, rfl⟩
    exact ⟨r, distinctBy_subset key l r hr, rfl⟩
  · rintro ⟨g, hg, rfl⟩
    obtain ⟨r, hr, hrkey⟩ := distinctBy_covers key l g hg
    exact ⟨r, hr, hrkey⟩

theorem distinctBy_length (key : Feature → EEVal) (l : List Feature) :
    (distinctBy key l).length = (l.map key).toFinset.card := by
  rw [← distinctBy_keys_toFinset key l,
    List.toFinset_card_of_nodup (distinctBy_keys_nodup key l), List.length_map]

theorem optMap_length (f : α → Option β) (l : List α) (bs : List β)
    (h : optMap f l = some bs) : bs.length = l.length := by
  induction l generalizing bs with
  | nil =>
    simp only [optMap, Option.some.injEq] at h
    simp [← h]
  | cons a as ih =>
    simp only [optMap] at h
    cases hfa : f a with
    | none => rw [hfa] at h; simp at h
    | some b =>
      rw [hfa] at h
      cases hrec : optMap f as with
      | none => rw [hrec] at h; simp at h
      | some bs2 =>
        rw [hrec] at h
        simp only [Option.some.injEq] at h
        simp [← h, ih bs2 hrec]

theorem optMap_mem (f : α → Option β) (l : List α) (bs : List β)
    (h : optMap f l = some bs) (b : β) (hb : b ∈ bs) :
    ∃ a ∈ l, f a = some b := by
  induction l generalizing bs with
  | nil =>
    simp only [optMap, Option.some.injEq] at h
    rw [← h] at hb
    simp at hb
  | cons a as ih =>
    simp only [optMap] at h
    cases hfa : f a with
    | none => rw [hfa] at h; simp at h
    | some b1 =>
      rw [hfa] at h
      cases hrec : optMap f as with
      | none => rw [hrec] at h; simp at h
      | some bs2 =>
        rw [hrec] at h
        simp only [Option.some.injEq] at h
        rw [← h] at hb
        rcases List.mem_cons.mp hb with hb | hb
        · exact ⟨a, List.mem_cons_self _ _, hb ▸ hfa⟩
        · obtain ⟨a2, ha2, hfa2⟩ := ih bs2 hrec hb
          exact ⟨a2, List.mem_cons_of_mem _ ha2, hfa2⟩

theorem optMap_forall (f : α → Option β) (l : List α) (bs : List β)
    (h : optMap f l = some bs) (a : α) (ha : a ∈ l) :
    ∃ b ∈ bs, f a = some b := by
  induction l generalizing bs with
  | nil => simp at ha
  | cons a1 as ih =>
    simp only [optMap] at h
    cases hfa : f a1 with
    | none => rw [hfa] at h; simp at h
    | some b1 =>
      rw [hfa] at h
      cases hrec : optMap f as with
      | none => rw [hrec] at h; simp at h
      | some bs2 =>
        rw [hrec] at h
        simp only [Option.some.injEq] at h
        rcases List.mem_cons.mp ha with ha | ha
        · exact ⟨b1, by rw [← h]; exact List.mem_cons_self _ _, ha ▸ hfa⟩
        · obtain ⟨b2, hb2, hfb2⟩ := ih bs2 hrec ha
          exact ⟨b2, by rw [← h]; exact List.mem_cons_of_mem _ hb2, hfb2⟩

theorem fmt2Round_eq_round (q : ℚ) : fmt2Round q = round (q * 100) := by
  have hden : (0 : ℚ) < (q.den : ℚ) := by
    exact_mod_cast q.den_pos
  have hne : ((2 * q.den : ℕ) : ℚ) ≠ 0 := by positivity
  have hkey : ((200 * q.num + (q.den : ℤ) : ℤ) : ℚ) / ((2 * q.den : ℕ) : ℚ)
      = q * 100 + 1 / 2 := by
    rw [div_eq_iff hne]
    push_cast
    rw [show (q : ℚ) * 100 = 100 * (q.num / (q.den : ℚ)) from by
      rw [Rat.num_div_den q]; ring]
    field_simp
    ring
  rw [round_eq, ← hkey, Rat.floor_intCast_div_natCast]
  unfold fmt2Round
  rw [Int.fdiv_eq_ediv _ (by positivity)]
  congr 1

theorem get_setAll_not_mem (f : Feature) (vs : List (String × String)) (k : String)
    (h : k ∉ vs.map Prod.fst) : (setAll f vs).get k = f.get k := by
  induction vs generalizing f with
  | nil => rfl
  | cons p rest ih =>
    obtain ⟨k1, c1⟩ := p
    simp only [List.map_cons, List.mem_cons] at h
    push_neg at h
    show (setAll (f.set k1 (.str c1)) rest).get k = f.get k
    rw [ih _ h.2, Feature.get_set_ne _ _ _ _ (fun h2 => h.1 h2.symm)]

theorem get_setAll_mem_of_const (f : Feature) (vs : List (String × String))
    (k : String) (c : String)
    (hconst : ∀ p ∈ vs, p.1 = k → p.2 = c) (hmem : (k, c) ∈ vs) :
    (setAll f vs).get k = .str c := by
  induction vs generalizing f with
  | nil => simp at hmem
  | cons p rest ih =>
    obtain ⟨k1, c1⟩ := p
    show (setAll (f.set k1 (.str c1)) rest).get k = .str c
    by_cases hk : k ∈ rest.map Prod.fst
    · obtain ⟨p2, hp2, hp2k⟩ := List.mem_map.mp hk
      have hp2c : p2.2 = c := hconst p2 (List.mem_cons_of_mem _ hp2) hp2k
      have : (k, c) ∈ rest := by
        have : p2 = (k, c) := Prod.ext hp2k hp2c
        exact this ▸ hp2
      exact ih _ (fun q hq hqk => hconst q (List.mem_cons_of_mem _ hq) hqk) this
    · have hhead : (k, c) = (k1, c1) := by
        rcases List.mem_cons.mp hmem with h | h
        · exact h
        · exact absurd (List.mem_map.mpr ⟨(k, c), h, rfl⟩) hk
      have hk1 : k1 = k := (congrArg Prod.fst hhead).symm
      have hc1 : c1 = c := (congrArg Prod.snd hhead).symm
      rw [get_setAll_not_mem _ _ _ hk, hk1, hc1, Feature.get_set_self]

theorem keys_setAll (f : Feature) (vs : List (String × String)) (k : String)
    (h : k ∈ (setAll f vs).keys) : k ∈ f.keys ∨ k ∈ vs.map Prod.fst := by
  induction vs generalizing f with
  | nil => exact Or.inl h
  | cons p rest ih =>
    obtain ⟨k1, c1⟩ := p
    rcases ih (f.set k1 (.str c1)) h with h2 | h2
    · rcases keys_set _ _ _ _ h2 with h3 | h3
      · exact Or.inr (by simp [h3])
      · exact Or.inl h3
    · exact Or.inr (List.mem_cons_of_mem _ h2)

theorem mem_props_setAll (f : Feature) (vs : List (String × String))
    (k : String) (v : EEVal) (h : (k, v) ∈ (setAll f vs).props) :
    (k, v) ∈ f.props ∨ ∃ c, v = .str c ∧ (k, c) ∈ vs := by
  induction vs generalizing f with
  | nil => exact Or.inl h
  | cons p rest ih =>
    obtain ⟨k1, c1⟩ := p
    rcases ih (f.set k1 (.str c1)) h with h2 | h2
    · rcases mem_setVal f.props k k1 v (.str c1) h2 with h3 | h3
      · exact Or.inr ⟨c1, h3.2, by simp [h3.1]⟩
      · exact Or.inl h3
    · obtain ⟨c, hc, hmem⟩ := h2
      exact Or.inr ⟨c, hc, List.mem_cons_of_mem _ hmem⟩

theorem mem_matchesOf (table : List Feature) (rowId : String) (r f : Feature) :
    f ∈ matchesOf table rowId r ↔ f ∈ table ∧ f.get rowId = r.get rowId := by
  simp [matchesOf, List.mem_filter]

theorem formatTable_eq (table : List Feature) (rowId colId bandAlias : String) :
    formatTable table rowId colId bandAlias
      = optMap (formatRow table rowId colId bandAlias)
          (distinctBy (fun f => Feature.get f rowId) table) := by
  unfold formatTable
  dsimp only
  congr 1
  apply List.filter_eq_self.mpr
  intro r hr
  have hrt : r ∈ table := distinctBy_subset _ _ _ hr
  have hself : r ∈ matchesOf table rowId r := (mem_matchesOf _ _ _ _).mpr ⟨hrt, rfl⟩
  have hne : matchesOf table rowId r ≠ [] := List.ne_nil_of_mem hself
  simp [List.isEmpty_iff, hne]

theorem formatRow_some (table : List Feature) (rowId colId bandAlias : String)
    (r out_r : Feature) (h : formatRow table rowId colId bandAlias r = some out_r) :
    ∃ vs, optMap (rowEntry colId bandAlias) (matchesOf table rowId r) = some vs
      ∧ out_r = setAll (r.select [rowId]) vs := by
  unfold formatRow at h
  cases h1 : optMap (rowEntry colId bandAlias) (matchesOf table rowId r) with
  | none => rw [h1] at h; simp at h
  | some vs =>
    rw [h1] at h
    simp only [Option.some.injEq] at h
    exact ⟨vs, rfl, h.symm⟩

theorem rowEntry_some (colId bandAlias : String) (f : Feature) (k c : String)
    (h : rowEntry colId bandAlias f = some (k, c)) :
    f.get colId = .str k
      ∧ ((f.get bandAlias = .null ∧ c = fmt2 (-9999))
          ∨ ∃ q : ℚ, f.get bandAlias = .num q ∧ c = fmt2 q) := by
  unfold rowEntry keyOf cellOf firstNonNull at h
  cases hcol : f.get colId with
  | null => rw [hcol] at h; simp at h
  | num q => rw [hcol] at h; simp at h
  | str s =>
    rw [hcol] at h
    cases hval : f.get bandAlias with
    | null =>
      rw [hval] at h
      simp only [Option.some.injEq, Prod.mk.injEq] at h
      exact ⟨by rw [h.1], Or.inl ⟨rfl, h.2.symm⟩⟩
    | num q =>
      rw [hval] at h
      simp only [Option.some.injEq, Prod.mk.injEq] at h
      exact ⟨by rw [h.1], Or.inr ⟨q, rfl, h.2.symm⟩⟩
    | str s2 => rw [hval] at h; simp at h

theorem vs_keys_ne_rowId (table : List Feature) (rowId colId bandAlias : String)
    (r : Feature) (vs : List (String × String))
    (hvs : optMap (rowEntry colId bandAlias) (matchesOf table rowId r) = some vs)
    (hcol : ∀ f ∈ table, Feature.get f colId ≠ .str rowId) :
    rowId ∉ vs.map Prod.fst := by
  intro hmem
  obtain ⟨p, hp, hpk⟩ := List.mem_map.mp hmem
  obtain ⟨g, hg, hge⟩ := optMap_mem _ _ _ hvs p hp
  obtain ⟨k2, c2⟩ := p
  have h2 := (rowEntry_some _ _ _ _ _ hge).1
  have hgt : g ∈ table := ((mem_matchesOf _ _ _ _).mp hg).1
  have hk2 : k2 = rowId := hpk
  exact hcol g hgt (by rw [h2, hk2])

theorem out_row_get_rowId (r : Feature) (rowId : String) (vs : List (String × String))
    (hkeys : rowId ∉ vs.map Prod.fst) :
    (setAll (r.select [rowId]) vs).get rowId = r.get rowId := by
  rw [get_setAll_not_mem _ _ _ hkeys, get_select_mem _ _ _ (by simp)]

theorem mem_keys_setVal (ps : List (String × EEVal)) (k k1 : String) (v : EEVal)
    (h : k ∈ ps.map Prod.fst ∨ k = k1) : k ∈ (setVal ps k1 v).map Prod.fst := by
  induction ps with
  | nil =>
    rcases h with h | h
    · simp at h
    · simp [setVal, h]
  | cons p rest ih =>
    obtain ⟨k2, v2⟩ := p
    by_cases h2 : k2 = k1
    · rw [show setVal ((k2, v2) :: rest) k1 v = (k1, v) :: rest from by simp [setVal, h2]]
      rcases h with h | h
      · simp only [List.map_cons, List.mem_cons] at h
        rcases h with h | h
        · simp [h, h2.symm]
        · simp [h]
      · simp [h]
    · rw [show setVal ((k2, v2) :: rest) k1 v = (k2, v2) :: setVal rest k1 v from by
        simp [setVal, h2]]
      rcases h with h | h
      · simp only [List.map_cons, List.mem_cons] at h
        rcases h with h | h
        · simp [h]
        · exact List.mem_cons_of_mem _ (ih (Or.inl h))
      · exact List.mem_cons_of_mem _ (ih (Or.inr h))

theorem keys_setAll_mono (f : Feature) (vs : List (String × String)) (k : String)
    (h : k ∈ f.keys) : k ∈ (setAll f vs).keys := by
  induction vs generalizing f with
  | nil => exact h
  | cons p rest ih =>
    obtain ⟨k1, c1⟩ := p
    exact ih _ (mem_keys_setVal f.props k k1 (.str c1) (Or.inl h))

theorem mem_keys_setAll (f : Feature) (vs : List (String × String)) (k : String)
    (h : k ∈ vs.map Prod.fst) : k ∈ (setAll f vs).keys := by
  induction vs generalizing f with
  | nil => simp at h
  | cons p rest ih =>
    obtain ⟨k1, c1⟩ := p
    show k ∈ (setAll (f.set k1 (.str c1)) rest).keys
    simp only [List.map_cons, List.mem_cons] at h
    by_cases hk : k ∈ rest.map Prod.fst
    · exact ih _ hk
    · have hk1 : k = k1 := by
        rcases h with h | h
        · exact h
        · exact absurd h hk
      exact keys_setAll_mono _ _ _
        (mem_keys_setVal f.props k k1 (.str c1) (Or.inr hk1))

theorem pad2_spec : ∀ m, m < 100 →
    (pad2 m).length = 2 ∧ (pad2 m).toList.all Char.isDigit = true := by decide

theorem fmt2_hasTwoDecimals (q : ℚ) : hasTwoDecimals (fmt2 q) := by
  have hlt : (fmt2Round q).natAbs % 100 < 100 := Nat.mod_lt _ (by norm_num)
  exact ⟨(if fmt2Round q < 0 then "-" else "")
      ++ Nat.repr ((fmt2Round q).natAbs / 100),
    pad2 ((fmt2Round q).natAbs % 100), rfl,
    (pad2_spec _ hlt).1, (pad2_spec _ hlt).2⟩

theorem keyOf_eq_some (colId : String) (f : Feature) (k : String)
    (h : keyOf colId f = some k) : f.get colId = .str k := by
  unfold keyOf at h
  cases hg : f.get colId with
  | null => rw [hg] at h; simp at h
  | num q => rw [hg] at h; simp at h
  | str s =>
    rw [hg] at h
    simp only [Option.some.injEq] at h
    rw [h]

/-- Claim C4.  For every long-format triplet table accepted by `formatTable`,
the wide table has one row per distinct `rowId` value of the input. -/
theorem formatTable_row_count (table : List Feature) (rowId colId bandAlias : String)
    (out : List Feature) (h : formatTable table rowId colId bandAlias = some out) :
    out.length = ((table.map (fun f => Feature.get f rowId)).toFinset).card := by
  rw [formatTable_eq] at h
  rw [optMap_length _ _ _ h, distinctBy_length]

/-- Claim C4 witness at a concrete two-point table. -/
theorem formatTable_row_count_witness :
    (((GEE.formatTable
        [⟨[("id", .num 1), ("imageId", .str "c1"), ("v", .num 5)]⟩,
         ⟨[("id", .num 2), ("imageId", .str "c2"), ("v", .num 3)]⟩]
        "id" "imageId" "v").getD []).length : ℕ)
      = (([⟨[("id", .num 1), ("imageId", .str "c1"), ("v", .num 5)]⟩,
           ⟨[("id", .num 2), ("imageId", .str "c2"), ("v", .num 3)]⟩]
            : List Feature).map (fun f => Feature.get f "id")).toFinset.card :=
  formatTable_row_count _ "id" "imageId" "v" _ (by decide)

/-- Claim C3.  The value columns of the wide table (all property names of
output rows other than the `rowId` column) are exactly the distinct `colId`
values observed in the long-format input. -/
theorem formatTable_columns (table : List Feature) (rowId colId bandAlias : String)
    (out : List Feature) (h : formatTable table rowId colId bandAlias = some out)
    (hcol : ∀ f ∈ table, Feature.get f colId ≠ .str rowId) :
    ((out.map Feature.keys).flatten.toFinset).erase rowId
      = (table.filterMap (keyOf colId)).toFinset := by
  rw [formatTable_eq] at h
  apply Finset.ext
  intro k
  simp only [Finset.mem_erase, List.mem_toFinset, List.mem_flatten, List.mem_map,
    List.mem_filterMap]
  constructor
  · rintro ⟨hkrow, ks, ⟨r, hr, rfl⟩, hkks⟩
    obtain ⟨r0, hr0, hform⟩ := optMap_mem _ _ _ h r hr
    obtain ⟨vs, hvs, rfl⟩ := formatRow_some _ _ _ _ _ _ hform
    rcases keys_setAll _ _ _ hkks with h2 | h2
    · exact absurd (keys_select _ _ _ h2) (by simpa using hkrow)
    · obtain ⟨p, hp, hpk⟩ := List.mem_map.mp h2
      obtain ⟨g, hg, hge⟩ := optMap_mem _ _ _ hvs p hp
      obtain ⟨k2, c2⟩ := p
      have h3 := (rowEntry_some _ _ _ _ _ hge).1
      have hk2 : k2 = k := hpk
      refine ⟨g, ((mem_matchesOf _ _ _ _).mp hg).1, ?_⟩
      unfold keyOf
      rw [h3, hk2]
  · rintro ⟨f, hf, hkey⟩
    have hfc : f.get colId = .str k := keyOf_eq_some _ _ _ hkey
    have hkrow : k ≠ rowId := by
      intro hkr
      exact hcol f hf (by rw [hfc, hkr])
    obtain ⟨r0, hr0, hr0key⟩ :=
      distinctBy_covers (fun f => Feature.get f rowId) table f hf
    obtain ⟨out_r, hout_r, hform⟩ := optMap_forall _ _ _ h r0 hr0
    obtain ⟨vs, hvs, hout_eq⟩ := formatRow_some _ _ _ _ _ _ hform
    have hfm : f ∈ matchesOf table rowId r0 :=
      (mem_matchesOf _ _ _ _).mpr ⟨hf, hr0key.symm⟩
    obtain ⟨p, hp, hpe⟩ := optMap_forall _ _ _ hvs f hfm
    obtain ⟨k2, c2⟩ := p
    have h3 := (rowEntry_some _ _ _ _ _ hpe).1
    have hk2 : k2 = k := by
      rw [hfc] at h3
      injection h3 with h4
      exact h4.symm
    refine ⟨hkrow, out_r.keys, ⟨out_r, hout_r, rfl⟩, ?_⟩
    rw [hout_eq]
    exact mem_keys_setAll _ _ _ (List.mem_map.mpr ⟨(k2, c2), hp, hk2⟩)

/-- Claim C3 witness at a concrete two-point table. -/
theorem formatTable_columns_witness :
    ((((GEE.formatTable
        [⟨[("id", .num 1), ("imageId", .str "c1"), ("v", .num 5)]⟩,
         ⟨[("id", .num 2), ("imageId", .str "c2"), ("v", .num 3)]⟩]
        "id" "imageId" "v").getD []).map Feature.keys).flatten.toFinset).erase "id"
      = (([⟨[("id", .num 1), ("imageId", .str "c1"), ("v", .num 5)]⟩,
           ⟨[("id", .num 2), ("imageId", .str "c2"), ("v", .num 3)]⟩]
            : List Feature).filterMap (keyOf "imageId")).toFinset :=
  formatTable_columns _ "id" "imageId" "v" _ (by decide) (by decide)

/-- Claim C5.  Every value cell (any property of a wide row other than the
`rowId` column) is the fixed two-decimal rendering of a sampled value of that
point, with the sentinel `-9999` substituted when the sample is null. -/
theorem formatTable_cell_format (table : List Feature) (rowId colId bandAlias : String)
    (out : List Feature) (h : formatTable table rowId colId bandAlias = some out)
    (hcol : ∀ f ∈ table, Feature.get f colId ≠ .str rowId)
    (r : Feature) (hr : r ∈ out) (k : String) (v : EEVal)
    (hk : k ≠ rowId) (hkv : (k, v) ∈ r.props) :
    ∃ f ∈ table, Feature.get f rowId = r.get rowId ∧ Feature.get f colId = .str k
      ∧ ∃ q : ℚ, v = .str (fmt2 q) ∧ hasTwoDecimals (fmt2 q)
        ∧ ((Feature.get f bandAlias = .null ∧ q = -9999)
            ∨ Feature.get f bandAlias = .num q) := by
  rw [formatTable_eq] at h
  obtain ⟨r0, hr0, hform⟩ := optMap_mem _ _ _ h r hr
  obtain ⟨vs, hvs, hre⟩ := formatRow_some _ _ _ _ _ _ hform
  subst hre
  rcases mem_props_setAll _ _ _ _ hkv with h2 | h2
  · have hkk : k ∈ (r0.select [rowId]).keys := List.mem_map.mpr ⟨(k, v), h2, rfl⟩
    have := keys_select _ _ _ hkk
    simp at this
    exact absurd this hk
  · obtain ⟨c, hvc, hmemvs⟩ := h2
    obtain ⟨g, hg, hge⟩ := optMap_mem _ _ _ hvs (k, c) hmemvs
    have hrow := (mem_matchesOf _ _ _ _).mp hg
    obtain ⟨h3, h4⟩ := rowEntry_some _ _ _ _ _ hge
    have hrid : (setAll (r0.select [rowId]) vs).get rowId = r0.get rowId :=
      out_row_get_rowId _ _ _ (vs_keys_ne_rowId _ _ _ _ _ _ hvs hcol)
    refine ⟨g, hrow.1, by rw [hrid]; exact hrow.2, h3, ?_⟩
    rcases h4 with ⟨hnull, hcfmt⟩ | ⟨q, hq, hcfmt⟩
    · exact ⟨-9999, by rw [hvc, hcfmt], fmt2_hasTwoDecimals _, Or.inl ⟨hnull, rfl⟩⟩
    · exact ⟨q, by rw [hvc, hcfmt], fmt2_hasTwoDecimals _, Or.inr hq⟩

/-- Claim C5 witness: the cell of the first wide row in column `c1`. -/
theorem formatTable_cell_format_witness :
    ∃ f ∈ sampleTable,
      Feature.get f "id" = (sampleWide.getD 0 ⟨[]⟩).get "id"
      ∧ Feature.get f "imageId" = .str "c1"
      ∧ ∃ q : ℚ, EEVal.str (fmt2 5) = .str (fmt2 q) ∧ hasTwoDecimals (fmt2 q)
        ∧ ((Feature.get f "v" = .null ∧ q = -9999)
            ∨ Feature.get f "v" = .num q) :=
  formatTable_cell_format sampleTable "id" "imageId" "v" sampleWide (by decide)
    (by decide) (sampleWide.getD 0 ⟨[]⟩) (by decide) "c1" (.str (fmt2 5))
    (by decide) (by decide)

/-- Claim C2 (amended).  If the pair `(p, c)` occurs in the long table and
every occurrence carries a null band value, then the wide row for `p` holds
the sentinel `-9999`, rendered with the same two-decimal formatting, in
column `c`.  (If the pair does not occur at all, the wide row simply lacks
column `c`; see the counterexample.) -/
theorem formatTable_null_sentinel (table : List Feature) (rowId colId bandAlias : String)
    (out : List Feature) (h : formatTable table rowId colId bandAlias = some out)
    (hcol : ∀ f ∈ table, Feature.get f colId ≠ .str rowId)
    (pid : EEVal) (c : String)
    (f0 : Feature) (hf0 : f0 ∈ table) (hf0row : f0.get rowId = pid)
    (hf0col : f0.get colId = .str c) (hf0val : f0.get bandAlias = .null)
    (hallnull : ∀ g ∈ table, Feature.get g rowId = pid →
      Feature.get g colId = .str c → Feature.get g bandAlias = .null) :
    ∃ r ∈ out, r.get rowId = pid ∧ r.get c = .str (fmt2 (-9999)) := by
  rw [formatTable_eq] at h
  obtain ⟨r0, hr0, hr0key⟩ :=
    distinctBy_covers (fun f => Feature.get f rowId) table f0 hf0
  obtain ⟨r, hr, hform⟩ := optMap_forall _ _ _ h r0 hr0
  obtain ⟨vs, hvs, hre⟩ := formatRow_some _ _ _ _ _ _ hform
  have hr0id : r0.get rowId = pid := by rw [← hf0row]; exact hr0key
  have hf0m : f0 ∈ matchesOf table rowId r0 :=
    (mem_matchesOf _ _ _ _).mpr ⟨hf0, by rw [hf0row, ← hr0id]⟩
  obtain ⟨p, hp, hpe⟩ := optMap_forall _ _ _ hvs f0 hf0m
  obtain ⟨k2, c2⟩ := p
  obtain ⟨h3, h4⟩ := rowEntry_some _ _ _ _ _ hpe
  have hk2 : k2 = c := by
    rw [hf0col] at h3
    injection h3 with h5
    exact h5.symm
  have hc2 : c2 = fmt2 (-9999) := by
    rcases h4 with ⟨_, hcf⟩ | ⟨q, hq, _⟩
    · exact hcf
    · rw [hf0val] at hq
      exact absurd hq (by simp)
  have hmemvs : (c, fmt2 (-9999)) ∈ vs := by rw [← hk2, ← hc2]; exact hp
  have hconst : ∀ p2 ∈ vs, p2.1 = c → p2.2 = fmt2 (-9999) := by
    intro p2 hp2 hp2k
    obtain ⟨g, hg, hge⟩ := optMap_mem _ _ _ hvs p2 hp2
    obtain ⟨k3, c3⟩ := p2
    obtain ⟨hg3, hg4⟩ := rowEntry_some _ _ _ _ _ hge
    have hgrow := (mem_matchesOf _ _ _ _).mp hg
    have hk3 : k3 = c := hp2k
    have hgnull : g.get bandAlias = .null :=
      hallnull g hgrow.1 (by rw [hgrow.2, hr0id]) (by rw [hg3, hk3])
    rcases hg4 with ⟨_, hcf⟩ | ⟨q, hq, _⟩
    · exact hcf
    · rw [hgnull] at hq
      exact absurd hq (by simp)
  subst hre
  refine ⟨_, hr, ?_, ?_⟩
  · rw [out_row_get_rowId _ _ _ (vs_keys_ne_rowId _ _ _ _ _ _ hvs hcol), hr0id]
  · exact get_setAll_mem_of_const _ _ _ _ hconst hmemvs

/-- Claim C2 witness: a point whose only sample for an image is null gets the
formatted sentinel in that image's column. -/
theorem formatTable_null_sentinel_witness :
    ∃ r ∈ nullWide, r.get "id" = EEVal.num 1 ∧ r.get "c1" = .str (fmt2 (-9999)) :=
  formatTable_null_sentinel nullTable "id" "imageId" "v" nullWide (by decide)
    (by decide) (EEVal.num 1) "c1"
    ⟨[("id", .num 1), ("imageId", .str "c1"), ("v", .null)]⟩
    (by decide) (by decide) (by decide) (by decide) (by decide)

/-- Claim C2 counterexample.  In `sampleTable`, point 1 has no triplet at all
for image `c2` (so no non-null value for the pair), and `c2` is a column of
the wide table; yet row 1's value at `c2` is null (the property is absent),
not the formatted sentinel. -/
theorem formatTable_missing_pair_no_sentinel :
    (sampleTable.filter (fun f => Feature.get f "id" = EEVal.num 1
        ∧ Feature.get f "imageId" = EEVal.str "c2") = [])
    ∧ ((sampleWide.getD 0 ⟨[]⟩).get "id" = EEVal.num 1)
    ∧ ((sampleWide.getD 1 ⟨[]⟩).get "c2" = EEVal.str (fmt2 3))
    ∧ ((sampleWide.getD 0 ⟨[]⟩).get "c2" = EEVal.null)
    ∧ ((sampleWide.getD 0 ⟨[]⟩).get "c2" ≠ EEVal.str (fmt2 (-9999))) := by
  decide

/-- Claim C9.  A wide row carries only the `rowId` property plus per-image-id
value columns: every property name of an output row is either `rowId` or a
`colId` value of some input feature. -/
theorem formatTable_keys_only (table : List Feature) (rowId colId bandAlias : String)
    (out : List Feature) (h : formatTable table rowId colId bandAlias = some out)
    (r : Feature) (hr : r ∈ out) (k : String) (hk : k ∈ r.keys) :
    k = rowId ∨ ∃ f ∈ table, Feature.get f colId = .str k := by
  rw [formatTable_eq] at h
  obtain ⟨r0, hr0, hform⟩ := optMap_mem _ _ _ h r hr
  obtain ⟨vs, hvs, hre⟩ := formatRow_some _ _ _ _ _ _ hform
  subst hre
  rcases keys_setAll _ _ _ hk with h2 | h2
  · have := keys_select _ _ _ h2
    simp at this
    exact Or.inl this
  · obtain ⟨p, hp, hpk⟩ := List.mem_map.mp h2
    obtain ⟨g, hg, hge⟩ := optMap_mem _ _ _ hvs p hp
    obtain ⟨k2, c2⟩ := p
    have h3 := (rowEntry_some _ _ _ _ _ hge).1
    have hk2 : k2 = k := hpk
    exact Or.inr ⟨g, ((mem_matchesOf _ _ _ _).mp hg).1, by rw [h3, hk2]⟩

/-- Claim C9 witness: the key `c1` of the first wide row is an image id. -/
theorem formatTable_keys_only_witness :
    "c1" = "id" ∨ ∃ f ∈ sampleTable, Feature.get f "imageId" = EEVal.str "c1" :=
  formatTable_keys_only sampleTable "id" "imageId" "v" sampleWide (by decide)
    (sampleWide.getD 0 ⟨[]⟩) (by decide) "c1" (by decide)

theorem copyProps_pix (dst src : EEImage) (ks : List String) :
    (copyProps dst src ks).pix = dst.pix := by
  induction ks generalizing dst with
  | nil => rfl
  | cons k rest ih => exact ih _

theorem copyProps_id (dst src : EEImage) (ks : List String) :
    (copyProps dst src ks).id = dst.id := by
  induction ks generalizing dst with
  | nil => rfl
  | cons k rest ih => exact ih _

/-- Claim C7.  For every image of the date-filtered, band-selected collection
and every unmasked pixel of the selected band, the scaling step multiplies
the pixel value by the `multiplier` argument (and masked pixels stay
masked). -/
theorem scaleImage_pixel (ic : List EEImage) (s e : ℚ) (band : String) (m : ℚ)
    (img : EEImage) (himg : img ∈ filteredCollection ic s e band)
    (p : ℤ × ℤ) (v : ℚ) (hv : img.pix band p = some v) :
    (scaleImage m img).pix band p = some (v * m) := by
  have hpix : (scaleImage m img).pix = (img.multiplyConst m).pix :=
    copyProps_pix _ _ _
  rw [hpix]
  show (img.pix band p).map (fun v => v * m) = some (v * m)
  rw [hv]
  rfl

/-- Claim C7 witness: a one-image collection with a single unmasked pixel of
value 7, scaled by one half. -/
theorem scaleImage_pixel_witness :
    (scaleImage (1 / 2)
        (EEImage.selectBand
          ⟨"I1", [("system:time_start", .num 0)],
            fun b p => if b = "B" ∧ p = (0, 0) then some 7 else none⟩
          "B")).pix "B" (0, 0) = some (7 * (1 / 2)) :=
  scaleImage_pixel
    [⟨"I1", [("system:time_start", .num 0)],
      fun b p => if b = "B" ∧ p = (0, 0) then some 7 else none⟩]
    0 1 "B" (1 / 2) _
    (by
      refine List.mem_map.mpr ⟨_, ?_, rfl⟩
      refine List.mem_filter.mpr ⟨List.mem_cons_self _ _, ?_⟩
      decide)
    (0, 0) 7 (by decide)

/-- Claim C8.  The scaling step carries over the `system:time_start` and
`system:time_end` properties unchanged from the original image. -/
theorem scaleImage_time_props (m : ℚ) (img : EEImage) :
    (scaleImage m img).getProp "system:time_start"
        = img.getProp "system:time_start"
      ∧ (scaleImage m img).getProp "system:time_end"
        = img.getProp "system:time_end" := by
  show ((((img.multiplyConst m).setProp "system:time_start"
      (img.getProp "system:time_start")).setProp "system:time_end"
      (img.getProp "system:time_end")).getProp "system:time_start"
        = img.getProp "system:time_start")
    ∧ ((((img.multiplyConst m).setProp "system:time_start"
      (img.getProp "system:time_start")).setProp "system:time_end"
      (img.getProp "system:time_end")).getProp "system:time_end"
        = img.getProp "system:time_end")
  constructor
  · simp only [EEImage.getProp, EEImage.setProp]
    rw [getVal_setVal_ne _ _ _ _ (by decide), getVal_setVal_self]
  · simp only [EEImage.getProp, EEImage.setProp]
    rw [getVal_setVal_self]

theorem tripletBlock_mem_imageId (img : EEImage) (fc : List Feature)
    (bandAlias : String) (sample : EEImage → Feature → EEVal) (t : Feature)
    (ht : t ∈ tripletBlock img fc bandAlias sample) :
    Feature.get t "imageId" = .str img.id := by
  obtain ⟨g, _, rfl⟩ := List.mem_map.mp ht
  exact Feature.get_set_self _ _ _

theorem tripletsOf_mem_imageId (images : List EEImage) (fc : List Feature)
    (bandAlias : String) (sample : EEImage → Feature → EEVal) (t : Feature)
    (ht : t ∈ tripletsOf images fc bandAlias sample) :
    ∃ i ∈ images, Feature.get t "imageId" = .str i.id := by
  simp only [tripletsOf, List.mem_flatten, List.mem_map] at ht
  obtain ⟨l, ⟨i, hi, rfl⟩, htl⟩ := ht
  exact ⟨i, hi, tripletBlock_mem_imageId _ _ _ _ _ htl⟩

theorem filter_key_length_le_one (l : List Feature) (key : Feature → EEVal)
    (v : EEVal) (p : Feature → Bool) (hnd : (l.map key).Nodup)
    (hp : ∀ x ∈ l, p x = true → key x = v) :
    (l.filter p).length ≤ 1 := by
  induction l with
  | nil => simp
  | cons a as ih =>
    rw [List.map_cons, List.nodup_cons] at hnd
    obtain ⟨ha, has⟩ := hnd
    rw [List.filter_cons]
    by_cases hpa : p a = true
    · rw [if_pos hpa]
      have hemp : as.filter p = [] := by
        apply List.filter_eq_nil_iff.mpr
        intro x hx hpx
        have h1 : key x = v := hp x (List.mem_cons_of_mem _ hx) hpx
        have h2 : key a = v := hp a (List.mem_cons_self _ _) hpa
        exact ha (List.mem_map.mpr ⟨x, hx, by rw [h1, h2]⟩)
      rw [hemp]
      simp
    · rw [if_neg hpa]
      exact ih has (fun x hx => hp x (List.mem_cons_of_mem _ hx))

theorem tripletBlock_count (img : EEImage) (fc : List Feature)
    (bandAlias : String) (sample : EEImage → Feature → EEVal)
    (halias : bandAlias ≠ "id")
    (hfc : (fc.map (fun f => Feature.get f "id")).Nodup)
    (pid : EEVal) (cid : String) :
    ((tripletBlock img fc bandAlias sample).filter
      (fun t => Feature.get t "id" = pid
        ∧ Feature.get t "imageId" = .str cid)).length ≤ 1 := by
  rw [show tripletBlock img fc bandAlias sample
      = fc.map (fun f => (f.set bandAlias (sample img f)).set "imageId"
          (.str img.id)) from by
    simp [tripletBlock, reduceRegions, List.map_map]]
  rw [List.filter_map, List.length_map]
  apply filter_key_length_le_one _ (fun f => Feature.get f "id") pid _ hfc
  intro x _ hpx
  simp only [Function.comp, decide_eq_true_eq] at hpx
  obtain ⟨h1, _⟩ := hpx
  rw [Feature.get_set_ne _ _ _ _ (by decide),
    Feature.get_set_ne _ _ _ _ halias] at h1
  exact h1

theorem tripletsOf_pair_count (fc : List Feature) (bandAlias : String)
    (sample : EEImage → Feature → EEVal) (halias : bandAlias ≠ "id")
    (pid : EEVal) (cid : String)
    (hfc : (fc.map (fun f => Feature.get f "id")).Nodup) :
    ∀ images : List EEImage, (images.map EEImage.id).Nodup →
      ((tripletsOf images fc bandAlias sample).filter
        (fun t => Feature.get t "id" = pid
          ∧ Feature.get t "imageId" = .str cid)).length ≤ 1 := by
  intro images
  induction images with
  | nil =>
    intro _
    simp [tripletsOf]
  | cons img rest ih =>
    intro hnd
    rw [List.map_cons, List.nodup_cons] at hnd
    obtain ⟨hhead, htail⟩ := hnd
    rw [show tripletsOf (img :: rest) fc bandAlias sample
        = tripletBlock img fc bandAlias sample
          ++ tripletsOf rest fc bandAlias sample from by
      simp [tripletsOf]]
    rw [List.filter_append, List.length_append]
    by_cases hc : cid = img.id
    · have hrest : (tripletsOf rest fc bandAlias sample).filter
          (fun t => Feature.get t "id" = pid
            ∧ Feature.get t "imageId" = .str cid) = [] := by
        apply List.filter_eq_nil_iff.mpr
        intro t ht
        obtain ⟨i, hi, hti⟩ := tripletsOf_mem_imageId rest fc bandAlias sample t ht
        simp only [decide_eq_true_eq]
        rintro ⟨_, h2⟩
        rw [hti] at h2
        injection h2 with h3
        exact hhead (List.mem_map.mpr ⟨i, hi, by rw [h3, hc]⟩)
      rw [hrest]
      simp only [List.length_nil, Nat.add_zero]
      exact tripletBlock_count img fc bandAlias sample halias hfc pid cid
    · have hblock : (tripletBlock img fc bandAlias sample).filter
          (fun t => Feature.get t "id" = pid
            ∧ Feature.get t "imageId" = .str cid) = [] := by
        apply List.filter_eq_nil_iff.mpr
        intro t ht
        have hti := tripletBlock_mem_imageId img fc bandAlias sample t ht
        simp only [decide_eq_true_eq]
        rintro ⟨_, h2⟩
        rw [hti] at h2
        injection h2 with h3
        exact hc h3.symm
      rw [hblock]
      simp only [List.length_nil, Nat.zero_add]
      exact ih htail

/-- Claim C6.  Under well-formed input (pairwise-distinct point ids,
pairwise-distinct image ids, and a band alias that does not collide with the
point-id property), the long-format table built by `exportTimeSeries`
contains at most one triplet per (point id, image id) pair. -/
theorem exportTimeSeries_triplets_unique (ic : List EEImage) (s e : ℚ)
    (band bandAlias : String) (m : ℚ) (fc : List Feature)
    (sample : EEImage → Feature → EEVal)
    (halias : bandAlias ≠ "id")
    (hic : (ic.map EEImage.id).Nodup)
    (hfc : (fc.map (fun f => Feature.get f "id")).Nodup)
    (pid : EEVal) (cid : String) :
    ((tripletsOf (scaledBand ic s e band m) fc bandAlias sample).filter
      (fun t => Feature.get t "id" = pid
        ∧ Feature.get t "imageId" = .str cid)).length ≤ 1 := by
  apply tripletsOf_pair_count fc bandAlias sample halias pid cid hfc
  have h1 : (scaledBand ic s e band m).map EEImage.id
      = (filterDate ic s e).map EEImage.id := by
    rw [scaledBand, filteredCollection, List.map_map, List.map_map]
    apply List.map_congr_left
    intro i _
    rfl
  rw [h1]
  exact ((List.filter_sublist ic).map EEImage.id).nodup hic

/-- Claim C6 witness: one image, one point. -/
theorem exportTimeSeries_triplets_unique_witness :
    ((tripletsOf
        (scaledBand [⟨"I1", [("system:time_start", .num 0)], fun _ _ => some 1⟩]
          0 1 "B" 1)
        [⟨[("id", .num 1)]⟩] "v" (fun _ _ => EEVal.num 2)).filter
      (fun t => Feature.get t "id" = .num 1
        ∧ Feature.get t "imageId" = .str "I1")).length ≤ 1 :=
  exportTimeSeries_triplets_unique
    [⟨"I1", [("system:time_start", .num 0)], fun _ _ => some 1⟩]
    0 1 "B" "v" 1 [⟨[("id", .num 1)]⟩] (fun _ _ => EEVal.num 2)
    (by decide) (by decide) (by decide) (.num 1) "I1"

/-- Claim C1 (code bug).  With 10 points and 5 chunks (chunk size 2), the
point with id "4" is exported both by the second call and by the third call:
because `endIndex` is passed as the count argument of `toList(count,
offset)`, chunk `i` holds up to `(i+1)*chunkSize` elements starting at
offset `i*chunkSize`, so consecutive chunks overlap and the chunk
subsets are not pairwise disjoint. -/
theorem divideAndExport_chunks_overlap :
    (⟨[("id", .str (Nat.repr 4))]⟩ : Feature) ∈
        ((divideAndExportTimeSeries pts10 5 "sp").getD 1 ⟨"", []⟩).subset
      ∧ (⟨[("id", .str (Nat.repr 4))]⟩ : Feature) ∈
        ((divideAndExportTimeSeries pts10 5 "sp").getD 2 ⟨"", []⟩).subset := by
  have hlen : pts10.length = 10 := by decide
  have hcs : chunkSize 10 5 = 2 := by
    unfold chunkSize
    rw [show ((10 : ℕ) : ℚ) / ((5 : ℕ) : ℚ) = ((2 : ℤ) : ℚ) from by norm_num,
      Int.ceil_intCast]
    rfl
  simp only [divideAndExportTimeSeries, hlen, hcs]
  decide

theorem natDigits_decreasing (n : ℕ) (h : ¬ n < 10) : n / 10 < n :=
  Nat.div_lt_self (by omega) (by norm_num)

theorem natDigits_lt (n : ℕ) (h : n < 10) :
    natDigits n = [Nat.digitChar n] := by
  rw [natDigits, dif_pos h]

theorem natDigits_ge (n : ℕ) (h : ¬ n < 10) :
    natDigits n = natDigits (n / 10) ++ [Nat.digitChar (n % 10)] := by
  rw [natDigits, dif_neg h]

theorem toDigitsCore_eq_natDigits (n : ℕ) :
    ∀ fuel (ds : List Char), n < fuel →
      Nat.toDigitsCore 10 fuel n ds = natDigits n ++ ds := by
  induction n using Nat.strong_induction_on with
  | _ n ih =>
    intro fuel ds hfuel
    match fuel with
    | 0 => omega
    | fuel + 1 =>
      show Nat.toDigitsCore 10 (fuel + 1) n ds = natDigits n ++ ds
      rw [Nat.toDigitsCore]
      by_cases h0 : n / 10 = 0
      · have hn : n < 10 := by omega
        simp only [if_pos h0]
        rw [natDigits_lt n hn, Nat.mod_eq_of_lt hn]
        rfl
      · have hn : ¬ n < 10 := by omega
        simp only [if_neg h0]
        have h10 : n / 10 < n := natDigits_decreasing n hn
        rw [ih _ h10 fuel (Nat.digitChar (n % 10) :: ds) (by omega)]
        rw [natDigits_ge n hn]
        simp

theorem digitChar_val : ∀ m, m < 10 → (Nat.digitChar m).toNat - 48 = m := by
  decide

theorem decodeDigits_append_singleton (xs : List Char) (c : Char) :
    decodeDigits (xs ++ [c]) = 10 * decodeDigits xs + (c.toNat - 48) := by
  unfold decodeDigits
  rw [List.foldl_append]
  rfl

theorem decode_natDigits (n : ℕ) : decodeDigits (natDigits n) = n := by
  induction n using Nat.strong_induction_on with
  | _ n ih =>
    by_cases h : n < 10
    · rw [natDigits_lt n h]
      show decodeDigits ([] ++ [Nat.digitChar n]) = n
      rw [decodeDigits_append_singleton, digitChar_val n h]
      simp [decodeDigits]
    · rw [natDigits_ge n h,
        decodeDigits_append_singleton,
        ih (n / 10) (natDigits_decreasing n h),
        digitChar_val (n % 10) (Nat.mod_lt _ (by norm_num))]
      omega

/-- Decimal rendering of naturals is injective (on the character data). -/
theorem repr_data_inj (a b : ℕ)
    (h : (Nat.repr a).data = (Nat.repr b).data) : a = b := by
  have h2 : Nat.toDigits 10 a = Nat.toDigits 10 b := h
  have h3 : natDigits a = natDigits b := by
    have ha := toDigitsCore_eq_natDigits a (a + 1) [] (Nat.lt_succ_self a)
    have hb := toDigitsCore_eq_natDigits b (b + 1) [] (Nat.lt_succ_self b)
    simp only [List.append_nil] at ha hb
    rw [show Nat.toDigits 10 a = Nat.toDigitsCore 10 (a + 1) a [] from rfl,
      show Nat.toDigits 10 b = Nat.toDigitsCore 10 (b + 1) b [] from rfl]
      at h2
    rw [ha, hb] at h2
    exact h2
  have := congrArg decodeDigits h3
  rwa [decode_natDigits, decode_natDigits] at this

/-- The chunk file names are injective in the chunk index. -/
theorem chunk_fileName_inj (x y : ℕ) (bandAlias : String)
    (h : "chunk" ++ Nat.repr x ++ "_" ++ bandAlias
       = "chunk" ++ Nat.repr y ++ "_" ++ bandAlias) : x = y := by
  apply repr_data_inj
  have hd := congrArg String.data h
  simp only [String.data_append] at hd
  have h1 := List.append_cancel_right hd
  have h2 := List.append_cancel_right h1
  exact List.append_cancel_left h2

/-- Claim C10.  For every `numChunks = k ≥ 1`, the chunk driver issues
exactly `k` export calls, in order of increasing chunk index; the `i`-th call
(1-based) uses the file name `'chunk' + i + '_' + bandAlias`, and the `k`
file names are pairwise distinct. -/
theorem divideAndExport_calls (collection : List Feature) (numChunks : ℕ)
    (bandAlias : String) (hk : 1 ≤ numChunks) :
    (divideAndExportTimeSeries collection numChunks bandAlias).length = numChunks
    ∧ (∀ i, i < numChunks →
        ((divideAndExportTimeSeries collection numChunks bandAlias).getD i
            ⟨"", []⟩).fileName
          = "chunk" ++ Nat.repr (i + 1) ++ "_" ++ bandAlias)
    ∧ ((divideAndExportTimeSeries collection numChunks bandAlias).map
        ExportCall.fileName).Nodup := by
  refine ⟨by simp [divideAndExportTimeSeries], ?_, ?_⟩
  · intro i hi
    have hilen : i < (divideAndExportTimeSeries collection numChunks
        bandAlias).length := by
      simpa [divideAndExportTimeSeries] using hi
    rw [List.getD_eq_getElem?_getD, List.getElem?_eq_getElem hilen]
    simp [divideAndExportTimeSeries]
  · rw [show (divideAndExportTimeSeries collection numChunks bandAlias).map
        ExportCall.fileName
      = (List.range numChunks).map
          (fun i => "chunk" ++ Nat.repr (i + 1) ++ "_" ++ bandAlias) from by
      simp [divideAndExportTimeSeries, List.map_map]]
    apply List.Nodup.map_on ?_ (List.nodup_range numChunks)
    intro x _ y _ hxy
    have := chunk_fileName_inj (x + 1) (y + 1) bandAlias hxy
    omega

/-- Claim C10 witness at three chunks over the ten-point collection. -/
theorem divideAndExport_calls_witness :
    (divideAndExportTimeSeries pts10 3 "sp").length = 3
    ∧ (∀ i, i < 3 →
        ((divideAndExportTimeSeries pts10 3 "sp").getD i ⟨"", []⟩).fileName
          = "chunk" ++ Nat.repr (i + 1) ++ "_" ++ "sp")
    ∧ ((divideAndExportTimeSeries pts10 3 "sp").map ExportCall.fileName).Nodup :=
  divideAndExport_calls pts10 3 "sp" (by decide)

end GEE
